import Mathlib

/-!
Verification of the weather-chat client's streaming pipeline.

Shallow embedding of the code in `src/lib/api.ts` (token-stream extractor
and transport reader), `src/components/chat/ChatUI.tsx` (structured
renderer `formatAgentMessage`) and the `useWeatherStream` hook (error
mapping).  Strings are modelled as `List Char`; byte streams as
`List Nat`; the platform `TextDecoder` is modelled as the WHATWG
streaming UTF-8 decoder.
-/

namespace Weather

/-! ## JavaScript string primitives -/

/-- The whitespace alphabet of JavaScript's `\s`, `trim`, `trimStart`:
ASCII whitespace, NBSP, the Unicode space separators, line/paragraph
separators and the BOM. -/
def wsChars : List Char :=
  [' ', '\t', '\n', '\r', '\x0b', '\x0c',
   Char.ofNat 0xa0, Char.ofNat 0x1680,
   Char.ofNat 0x2000, Char.ofNat 0x2001, Char.ofNat 0x2002, Char.ofNat 0x2003,
   Char.ofNat 0x2004, Char.ofNat 0x2005, Char.ofNat 0x2006, Char.ofNat 0x2007,
   Char.ofNat 0x2008, Char.ofNat 0x2009, Char.ofNat 0x200a,
   Char.ofNat 0x2028, Char.ofNat 0x2029, Char.ofNat 0x202f,
   Char.ofNat 0x205f, Char.ofNat 0x3000, Char.ofNat 0xfeff]

def isJsWs (c : Char) : Bool := wsChars.contains c

/-- `String.prototype.trimStart`. -/
def jsTrimStart (l : List Char) : List Char := l.dropWhile isJsWs

/-- `String.prototype.trimEnd`. -/
def jsTrimEnd (l : List Char) : List Char := (l.reverse.dropWhile isJsWs).reverse

/-- `String.prototype.trim`. -/
def jsTrim (l : List Char) : List Char := jsTrimEnd (jsTrimStart l)

/-- `a.startsWith(p)` for strings, on char lists. -/
def leadsWith : List Char → List Char → Bool
  | [], _ => true
  | _ :: _, [] => false
  | p :: ps, c :: cs => p == c && leadsWith ps cs

/-- `a.endsWith(p)` for strings, on char lists. -/
def trailsWith (p l : List Char) : Bool := leadsWith p.reverse l.reverse

/-- `String.prototype.indexOf` for a single character (`-1` if absent). -/
def jsIndexOf (c : Char) : List Char → Int
  | [] => -1
  | a :: as =>
    if a = c then 0
    else if jsIndexOf c as = -1 then -1 else jsIndexOf c as + 1

/-- `String.prototype.lastIndexOf` for a single character (`-1` if absent). -/
def jsLastIndexOf (c : Char) : List Char → Int
  | [] => -1
  | a :: as =>
    if jsLastIndexOf c as = -1 then (if a = c then 0 else -1)
    else jsLastIndexOf c as + 1

/-! ## Token-stream extractor (`api.ts`, `extractTextFromTokenStream`) -/

/-- The test `/^[faed]:/i.test(raw.trim())` (api.ts:38): a single-letter
control sentinel from the alphabet `f a e d` (case-insensitive) followed
by a colon. -/
def faedColonTest (t : List Char) : Bool :=
  match t with
  | a :: b :: _ =>
    (a == 'f' || a == 'a' || a == 'e' || a == 'd' ||
     a == 'F' || a == 'A' || a == 'E' || a == 'D') && b == ':'
  | _ => false

/-- One attempt of the regex `\d+:"([\s\S]*?)"` at the current position
(api.ts:40): one or more digits, a colon, a quote, then a lazy body up to
the next quote.  Returns the captured body and the rest after the match. -/
def tryMatchAt (s : List Char) : Option (List Char × List Char) :=
  let ds := s.takeWhile Char.isDigit
  let r1 := s.dropWhile Char.isDigit
  if ds.isEmpty then none else
  match r1 with
  | ':' :: '"' :: r2 =>
    let body := r2.takeWhile (fun c => c ≠ '"')
    let r3 := r2.dropWhile (fun c => c ≠ '"')
    match r3 with
    | '"' :: rest => some (body, rest)
    | _ => none
  | _ => none

theorem tryMatchAt_length {s tok rest : List Char}
    (h : tryMatchAt s = some (tok, rest)) : rest.length < s.length := by
  simp only [tryMatchAt] at h
  have hlen := congrArg List.length
    (List.takeWhile_append_dropWhile (p := Char.isDigit) (l := s))
  simp only [List.length_append] at hlen
  split at h
  · exact absurd h (by simp)
  next hds =>
    split at h
    next r2 heq =>
      have hlen2 := congrArg List.length
        (List.takeWhile_append_dropWhile (p := fun c => decide (c ≠ '"')) (l := r2))
      simp only [List.length_append] at hlen2
      split at h
      next rest' heq2 =>
        have h2 := congrArg List.length heq
        have h3 := congrArg List.length heq2
        simp only [List.length_cons] at h2 h3
        have hds' : (s.takeWhile Char.isDigit).length ≠ 0 := by
          intro h0
          rw [List.length_eq_zero] at h0
          simp [List.isEmpty_iff, h0] at hds
        have : rest = rest' := by
          injection h with h'
          exact (congrArg Prod.snd h').symm
        subst this
        omega
      next => exact absurd h (by simp)
    next => exact absurd h (by simp)

/-- Worker for `scanTokens`.  The fuel only bounds the recursion depth;
every step strictly shrinks the list (`tryMatchAt_length`), so fuel equal
to the length is always enough (`scanTokensF_congr`). -/
def scanTokensF : Nat → List Char → List (List Char)
  | 0, _ => []
  | _ + 1, [] => []
  | fuel + 1, c :: cs =>
    match tryMatchAt (c :: cs) with
    | some (tok, rest) => tok :: scanTokensF fuel rest
    | none => scanTokensF fuel cs

/-- The global scan `while ((m = re.exec(raw)) !== null)` (api.ts:41-42):
collect the captured bodies of all matches, left to right, resuming after
each match. -/
def scanTokens (s : List Char) : List (List Char) :=
  scanTokensF s.length s

theorem scanTokensF_congr (f1 : Nat) : ∀ (f2 : Nat) (s : List Char),
    s.length ≤ f1 → s.length ≤ f2 → scanTokensF f1 s = scanTokensF f2 s := by
  induction f1 with
  | zero =>
    intro f2 s h1 h2
    have hs : s = [] := List.length_eq_zero.mp (Nat.le_zero.mp h1)
    subst hs
    cases f2 <;> rfl
  | succ f1 ih =>
    intro f2 s h1 h2
    cases s with
    | nil => cases f2 <;> rfl
    | cons c cs =>
      cases f2 with
      | zero => simp at h2
      | succ f2 =>
        simp only [List.length_cons] at h1 h2
        cases hm : tryMatchAt (c :: cs) with
        | some pr =>
          obtain ⟨tok, rest⟩ := pr
          have hlen := tryMatchAt_length hm
          simp only [List.length_cons] at hlen
          simp only [scanTokensF, hm]
          rw [ih f2 rest (by omega) (by omega)]
        | none =>
          simp only [scanTokensF, hm]
          rw [ih f2 cs (by omega) (by omega)]

theorem scanTokens_eq_f {fuel : Nat} {s : List Char} (h : s.length ≤ fuel) :
    scanTokens s = scanTokensF fuel s :=
  scanTokensF_congr s.length fuel s (Nat.le_refl _) h

/-- The test `/^\d+:/.test(trimmed)` (api.ts:45). -/
def digitColonTest (t : List Char) : Bool :=
  !(t.takeWhile Char.isDigit).isEmpty &&
    (t.dropWhile Char.isDigit).head? == some ':'

/-- `trimmed.replace(/^\d+:/, '')` (api.ts:46), in the branch where the
test succeeded: drop the digits and the colon. -/
def dropDigitColon (t : List Char) : List Char :=
  (t.dropWhile Char.isDigit).tail

/-- The brace test of api.ts:47-49:
`firstBrace !== -1 && lastBrace !== -1 && lastBrace > firstBrace`. -/
def bracePairCond (l : List Char) : Bool :=
  jsIndexOf '\x7b' l != -1 && jsLastIndexOf '\x7d' l != -1 &&
    jsLastIndexOf '\x7d' l > jsIndexOf '\x7b' l

/-! ### JSON (model of the platform `JSON.parse`) -/

inductive Json where
  | null : Json
  | bool : Bool → Json
  /-- A number literal: sign, integer digits, fraction digits, exponent
  lexeme (empty when absent). -/
  | num : Bool → List Char → List Char → List Char → Json
  | str : List Char → Json
  | arr : List Json → Json
  | obj : List (List Char × Json) → Json

/-- JSON insignificant whitespace. -/
def skipJsonWs (l : List Char) : List Char :=
  l.dropWhile (fun c => c == ' ' || c == '\t' || c == '\n' || c == '\r')

def hexVal (c : Char) : Option Nat :=
  if '0' ≤ c ∧ c ≤ '9' then some (c.toNat - '0'.toNat)
  else if 'a' ≤ c ∧ c ≤ 'f' then some (c.toNat - 'a'.toNat + 10)
  else if 'A' ≤ c ∧ c ≤ 'F' then some (c.toNat - 'A'.toNat + 10)
  else none

/-- Parse the body of a JSON string after the opening quote.  `\uXXXX`
escapes combine surrogate pairs; a lone surrogate (which JavaScript would
keep as a UTF-16 code unit) is replaced by U+FFFD, a deviation that no
claim depends on.  The fuel argument only bounds recursion; every step
consumes at least one character, so `length + 1` is always enough. -/
def parseJsonString : Nat → List Char → Option (List Char × List Char)
  | 0, _ => none
  | _, [] => none
  | _ + 1, '"' :: r => some ([], r)
  | fuel + 1, '\\' :: e :: r =>
    (match e with
    | '"' => (parseJsonString fuel r).map (fun p => ('"' :: p.1, p.2))
    | '\\' => (parseJsonString fuel r).map (fun p => ('\\' :: p.1, p.2))
    | '/' => (parseJsonString fuel r).map (fun p => ('/' :: p.1, p.2))
    | 'b' => (parseJsonString fuel r).map (fun p => ('\x08' :: p.1, p.2))
    | 'f' => (parseJsonString fuel r).map (fun p => ('\x0c' :: p.1, p.2))
    | 'n' => (parseJsonString fuel r).map (fun p => ('\n' :: p.1, p.2))
    | 'r' => (parseJsonString fuel r).map (fun p => ('\r' :: p.1, p.2))
    | 't' => (parseJsonString fuel r).map (fun p => ('\t' :: p.1, p.2))
    | 'u' =>
      (match r with
      | h1 :: h2 :: h3 :: h4 :: r' =>
        (match hexVal h1, hexVal h2, hexVal h3, hexVal h4 with
        | some a, some b, some c, some d =>
          let cu := ((a * 16 + b) * 16 + c) * 16 + d
          if 0xd800 ≤ cu ∧ cu ≤ 0xdbff then
            match r' with
            | '\\' :: 'u' :: g1 :: g2 :: g3 :: g4 :: r'' =>
              (match hexVal g1, hexVal g2, hexVal g3, hexVal g4 with
              | some a2, some b2, some c2, some d2 =>
                let cu2 := ((a2 * 16 + b2) * 16 + c2) * 16 + d2
                if 0xdc00 ≤ cu2 ∧ cu2 ≤ 0xdfff then
                  (parseJsonString fuel r'').map (fun p =>
                    (Char.ofNat (0x10000 + (cu - 0xd800) * 0x400 + (cu2 - 0xdc00)) :: p.1, p.2))
                else
                  (parseJsonString fuel r').map (fun p => (Char.ofNat 0xfffd :: p.1, p.2))
              | _, _, _, _ =>
                (parseJsonString fuel r').map (fun p => (Char.ofNat 0xfffd :: p.1, p.2)))
            | _ => (parseJsonString fuel r').map (fun p => (Char.ofNat 0xfffd :: p.1, p.2))
          else if 0xdc00 ≤ cu ∧ cu ≤ 0xdfff then
            (parseJsonString fuel r').map (fun p => (Char.ofNat 0xfffd :: p.1, p.2))
          else
            (parseJsonString fuel r').map (fun p => (Char.ofNat cu :: p.1, p.2))
        | _, _, _, _ => none)
      | _ => none)
    | _ => none)
  | fuel + 1, c :: r =>
    if c.toNat < 0x20 then none
    else (parseJsonString fuel r).map (fun p => (c :: p.1, p.2))

/-- Parse a JSON number at the front (first char is `-` or a digit). -/
def parseJsonNumber (s : List Char) : Option (Json × List Char) :=
  let (neg, s1) := match s with
    | '-' :: r => (true, r)
    | _ => (false, s)
  let ip := s1.takeWhile Char.isDigit
  let s2 := s1.dropWhile Char.isDigit
  if ip.isEmpty then none
  else if ip.length > 1 ∧ ip.head? = some '0' then none
  else
    let (fp, s3) := match s2 with
      | '.' :: r =>
        (r.takeWhile Char.isDigit, r.dropWhile Char.isDigit)
      | _ => ([], s2)
    if s2.head? = some '.' ∧ fp.isEmpty then none
    else
      match s3 with
      | e :: r =>
        if e = 'e' ∨ e = 'E' then
          let (sgn, r1) := match r with
            | '+' :: r' => (['+'], r')
            | '-' :: r' => (['-'], r')
            | _ => (([] : List Char), r)
          let ed := r1.takeWhile Char.isDigit
          if ed.isEmpty then none
          else some (.num neg ip fp (e :: (sgn ++ ed)), r1.dropWhile Char.isDigit)
        else some (.num neg ip fp [], s3)
      | [] => some (.num neg ip fp [], [])

mutual

def parseJsonValue : Nat → List Char → Option (Json × List Char)
  | 0, _ => none
  | fuel + 1, s =>
    match skipJsonWs s with
    | 'n' :: 'u' :: 'l' :: 'l' :: r => some (.null, r)
    | 't' :: 'r' :: 'u' :: 'e' :: r => some (.bool true, r)
    | 'f' :: 'a' :: 'l' :: 's' :: 'e' :: r => some (.bool false, r)
    | '"' :: r => (parseJsonString (r.length + 1) r).map (fun p => (.str p.1, p.2))
    | '[' :: r =>
      (match skipJsonWs r with
       | ']' :: r' => some (.arr [], r')
       | _ => (parseJsonElems fuel r).map (fun p => (.arr p.1, p.2)))
    | '\x7b' :: r =>
      (match skipJsonWs r with
       | '\x7d' :: r' => some (.obj [], r')
       | _ => (parseJsonMembers fuel r).map (fun p => (.obj p.1, p.2)))
    | t =>
      match t.head? with
      | some c => if c = '-' ∨ c.isDigit then parseJsonNumber t else none
      | none => none

def parseJsonElems : Nat → List Char → Option (List Json × List Char)
  | 0, _ => none
  | fuel + 1, s =>
    match parseJsonValue fuel s with
    | some (v, rest) =>
      (match skipJsonWs rest with
       | ',' :: r => (parseJsonElems fuel r).map (fun p => (v :: p.1, p.2))
       | ']' :: r => some ([v], r)
       | _ => none)
    | none => none

def parseJsonMembers : Nat → List Char → Option (List (List Char × Json) × List Char)
  | 0, _ => none
  | fuel + 1, s =>
    match skipJsonWs s with
    | '"' :: r =>
      (match parseJsonString (r.length + 1) r with
       | some (key, rest) =>
         (match skipJsonWs rest with
          | ':' :: r2 =>
            (match parseJsonValue fuel r2 with
             | some (v, rest2) =>
               (match skipJsonWs rest2 with
                | ',' :: r3 => (parseJsonMembers fuel r3).map (fun p => ((key, v) :: p.1, p.2))
                | '\x7d' :: r3 => some ([(key, v)], r3)
                | _ => none)
             | none => none)
          | _ => none)
       | none => none)
    | _ => none

end

/-- `JSON.parse` on a whole string: one value, with only trailing
whitespace allowed. -/
def jsonParse (s : List Char) : Option Json :=
  match parseJsonValue (s.length + 1) s with
  | some (v, rest) => if skipJsonWs rest = [] then some v else none
  | none => none

/-- JavaScript property access (duplicate keys: the last wins, as in
`JSON.parse`). -/
def jsObjGet (fields : List (List Char × Json)) (key : List Char) : Option Json :=
  match fields.reverse.find? (fun p => p.1 == key) with
  | some p => some p.2
  | none => none

/-- JavaScript truthiness of a property that came from `JSON.parse`
(`undefined`, `null`, `false`, `""` and `0` are falsy).  Zero-ness of a
number is decided on the decimal mantissa; double underflow (`1e-400`) is
not modelled. -/
def jsTruthy : Option Json → Bool
  | none => false
  | some .null => false
  | some (.bool b) => b
  | some (.str s) => !s.isEmpty
  | some (.num _ ip fp _) => !(ip.all (fun c => c = '0') && fp.all (fun c => c = '0'))
  | some (.arr _) => true
  | some (.obj _) => true

/-- The guard `obj?.toolCallId || obj?.toolName || obj?.messageId ||
obj?.finishReason` (api.ts:57). -/
def hasTruthyMetaField (j : Json) : Bool :=
  match j with
  | .obj fs =>
    jsTruthy (jsObjGet fs ("toolCallId".toList)) ||
    jsTruthy (jsObjGet fs ("toolName".toList)) ||
    jsTruthy (jsObjGet fs ("messageId".toList)) ||
    jsTruthy (jsObjGet fs ("finishReason".toList))
  | _ => false

/-- `extractTextFromTokenStream` (api.ts:36-64). -/
def extractTextFromTokenStream (raw : List Char) : List Char :=
  if faedColonTest (jsTrim raw) then []
  else
    let tokens := scanTokens raw
    if !tokens.isEmpty then tokens.flatten
    else
      let trimmed := jsTrimStart raw
      if digitColonTest trimmed then
        let afterIndex := dropDigitColon trimmed
        if bracePairCond afterIndex then
          jsTrim (afterIndex.drop ((jsLastIndexOf '\x7d' afterIndex).toNat + 1))
        else []
      else if trimmed.head? = some '\x7b' ∧ trimmed.getLast? = some '\x7d' then
        match jsonParse trimmed with
        | some j => if hasTruthyMetaField j then [] else raw
        | none => raw
      else raw


/-! ## Streaming UTF-8 decoder (model of the platform `TextDecoder`)

`sendMessageToWeatherAgent` creates one `TextDecoder` (api.ts:93) and
calls `decoder.decode(value, { stream: true })` per chunk (api.ts:99).
This is the WHATWG UTF-8 decoder: a byte-at-a-time state machine with
carry-over of incomplete sequences, U+FFFD on errors, and removal of one
leading byte-order mark. -/

/-- Decoder registers per the WHATWG Encoding Standard's UTF-8 decoder:
accumulated code point, bytes needed, bytes seen, the admissible
continuation-byte range, and whether the initial BOM has been dealt
with. -/
structure DecState where
  codepoint : Nat
  needed : Nat
  seen : Nat
  lower : Nat
  upper : Nat
  bomDone : Bool
deriving DecidableEq, Repr

def initDecState : DecState :=
  ⟨0, 0, 0, 0x80, 0xbf, false⟩

def replacementChar : Char := Char.ofNat 0xfffd

/-- Handle one byte in the "no sequence in progress" state. -/
def decodeStart (bom : Bool) (b : Nat) : DecState × List Char :=
  if b ≤ 0x7f then (⟨0, 0, 0, 0x80, 0xbf, bom⟩, [Char.ofNat b])
  else if 0xc2 ≤ b ∧ b ≤ 0xdf then (⟨b % 32, 1, 0, 0x80, 0xbf, bom⟩, [])
  else if b = 0xe0 then (⟨b % 16, 2, 0, 0xa0, 0xbf, bom⟩, [])
  else if b = 0xed then (⟨b % 16, 2, 0, 0x80, 0x9f, bom⟩, [])
  else if 0xe1 ≤ b ∧ b ≤ 0xef then (⟨b % 16, 2, 0, 0x80, 0xbf, bom⟩, [])
  else if b = 0xf0 then (⟨b % 8, 3, 0, 0x90, 0xbf, bom⟩, [])
  else if b = 0xf4 then (⟨b % 8, 3, 0, 0x80, 0x8f, bom⟩, [])
  else if 0xf1 ≤ b ∧ b ≤ 0xf3 then (⟨b % 8, 3, 0, 0x80, 0xbf, bom⟩, [])
  else (⟨0, 0, 0, 0x80, 0xbf, bom⟩, [replacementChar])

/-- Handle one byte of the stream. -/
def decodeByte (st : DecState) (b : Nat) : DecState × List Char :=
  if st.needed = 0 then decodeStart st.bomDone b
  else if st.lower ≤ b ∧ b ≤ st.upper then
    let cp := st.codepoint * 64 + b % 64
    if st.seen + 1 = st.needed then
      (⟨0, 0, 0, 0x80, 0xbf, st.bomDone⟩, [Char.ofNat cp])
    else (⟨cp, st.needed, st.seen + 1, 0x80, 0xbf, st.bomDone⟩, [])
  else
    -- decode error with restore: emit U+FFFD, reprocess the byte fresh
    let p := decodeStart st.bomDone b
    (p.1, replacementChar :: p.2)

/-- BOM filtering applied to a run of freshly decoded characters: the
first character ever produced is dropped when it is U+FEFF. -/
def applyBom (bom : Bool) (cs : List Char) : Bool × List Char :=
  if bom then (true, cs)
  else
    match cs with
    | [] => (false, [])
    | c :: rest => (true, if c = Char.ofNat 0xfeff then rest else c :: rest)

/-- `decoder.decode(bytes, { stream: true })` from state `st`. -/
def decodeChunk (st : DecState) : List Nat → DecState × List Char
  | [] => (st, [])
  | b :: bs =>
    let p := decodeByte st b
    let f := applyBom p.1.bomDone p.2
    let q := decodeChunk { p.1 with bomDone := f.1 } bs
    (q.1, f.2 ++ q.2)

/-! ## Transport reader (`api.ts`, `sendMessageToWeatherAgent` read loop) -/

/-- `buffer.split('\n')` on char lists: always a non-empty list; all
elements are newline-free; the last element is the tail after the last
newline. -/
def splitNl : List Char → List (List Char)
  | [] => [[]]
  | c :: cs =>
    if c = '\n' then [] :: splitNl cs
    else
      match splitNl cs with
      | [] => [[c]]
      | l :: ls => (c :: l) :: ls

/-- `cleaned.replace(/\\n/g, '\n')` (api.ts:109): turn escaped-newline
sequences into real newlines. -/
def normalizeEscapedNl : List Char → List Char
  | [] => []
  | '\\' :: 'n' :: rest => '\n' :: normalizeEscapedNl rest
  | c :: rest => c :: normalizeEscapedNl rest

/-- One iteration of the `for (const line of lines)` body
(api.ts:102-115).  State: fragments delivered to `onChunk` so far, and
whether the `[DONE]` early return has fired (which models the `return`
aborting the loop and the whole read). -/
def lineStep (s : List (List Char) × Bool) (line : List Char) : List (List Char) × Bool :=
  if s.2 then s
  else if jsTrim line = [] then s
  else if leadsWith ("data: ".toList) line then
    let data := line.drop 6
    if data = "[DONE]".toList then (s.1, true)
    else
      let cleaned := normalizeEscapedNl (extractTextFromTokenStream data)
      if cleaned = [] then s else (s.1 ++ [cleaned], false)
  else
    let cleaned := normalizeEscapedNl (extractTextFromTokenStream line)
    if cleaned = [] then s else (s.1 ++ [cleaned], false)

/-- The state of the read loop between two `reader.read()` resolutions:
decoder carry-over, the held-back segment after the last newline
(api.ts:101), the fragments delivered so far, and whether `[DONE]` has
terminated the loop. -/
structure RState where
  dst : DecState
  buffer : List Char
  frags : List (List Char)
  finished : Bool
deriving DecidableEq, Repr

def initReader : RState :=
  ⟨initDecState, [], [], false⟩

/-- One iteration of the `while (true)` read loop for a delivered chunk
(api.ts:96-116): decode with carry, split the accumulated text on
newlines, hold back the final segment, run the line loop over the
complete lines. -/
def processChunk (s : RState) (bytes : List Nat) : RState :=
  if s.finished then s
  else
    let d := decodeChunk s.dst bytes
    let parts := splitNl (s.buffer ++ d.2)
    let ls := List.foldl lineStep (s.frags, false) parts.dropLast
    if ls.2 then ⟨initDecState, [], ls.1, true⟩
    else ⟨d.1, parts.getLastD [], ls.1, false⟩

/-- A whole run of `sendMessageToWeatherAgent`'s read loop over the
chunks delivered by `reader.read()`: the fragment sequence passed to
`onChunk`, and whether `onComplete` was invoked — which the code does on
both exits, the `[DONE]` early return (api.ts:106) and byte-stream
exhaustion (api.ts:118). -/
def runReader (chunks : List (List Nat)) : List (List Char) × Bool :=
  let s := List.foldl processChunk initReader chunks
  (s.frags, if s.finished then true else true)

/-- ASCII test inputs as byte chunks. -/
def asciiBytes (s : String) : List Nat := s.toList.map Char.toNat

/-! ## Structured renderer (`ChatUI.tsx`, `formatAgentMessage`) -/

/-- Emit a counted newline run under `replace(/\n{3,}/g, '\n\n')`: runs
of three or more become exactly two, shorter runs are unchanged. -/
def emitNlRun (k : Nat) : List Char :=
  List.replicate (if 3 ≤ k then 2 else k) '\n'

/-- Worker for `collapseNlRuns`, carrying the length of the pending
newline run. -/
def collapseNlAux : Nat → List Char → List Char
  | k, [] => emitNlRun k
  | k, '\n' :: cs => collapseNlAux (k + 1) cs
  | k, c :: cs => emitNlRun k ++ c :: collapseNlAux 0 cs

/-- `content.replace(/\n{3,}/g, '\n\n')` (ChatUI.tsx:61): collapse runs
of three or more newlines to exactly two. -/
def collapseNlRuns (l : List Char) : List Char :=
  collapseNlAux 0 l

/-- The normalization of ChatUI.tsx:61:
`content.replace(/\r/g, '').replace(/\n{3,}/g, '\n\n')`. -/
def normalizeMsg (content : List Char) : List Char :=
  collapseNlRuns (content.filter (fun c => c ≠ '\r'))

/-- The character class `[A-Za-z .()]` of `titleRe` (ChatUI.tsx:69). -/
def isTitleChar (c : Char) : Bool :=
  (('A' ≤ c && c ≤ 'Z') || ('a' ≤ c && c ≤ 'z')) ||
    c = ' ' || c = '.' || c = '(' || c = ')'

/-- The separator alternation `(?:\s*[—-]\s*|\s*:\s*)` of `titleRe`: both
branches first consume greedy whitespace, then an em-dash/hyphen or a
colon, then greedy whitespace.  Returns the remainder (which becomes the
greedy group 2). -/
def trySep (s : List Char) : Option (List Char) :=
  match s.dropWhile isJsWs with
  | c :: r =>
    if c = '—' ∨ c = '-' ∨ c = ':' then some (r.dropWhile isJsWs)
    else none
  | [] => none

/-- Lazy growth of group 1 `([A-Za-z .()]+?)`: with at least one class
character accumulated (in reverse), try the separator first, else extend
by one class character. -/
def growGroup1 (acc : List Char) (s : List Char) : Option (List Char × List Char) :=
  match trySep s with
  | some rest => some (acc.reverse, rest)
  | none =>
    match s with
    | c :: r => if isTitleChar c then growGroup1 (c :: acc) r else none
    | [] => none

/-- Start group 1: its first character must be in the class. -/
def tryGroup1 (s : List Char) : Option (List Char × List Char) :=
  match s with
  | c :: r => if isTitleChar c then growGroup1 [c] r else none
  | [] => none

/-- The leading `\s*` of `titleRe` after the optional dash: greedy with
backtracking (whitespace is also in group 1's class, so on failure the
spaces are handed to group 1 one at a time, right to left). -/
def matchAfterDash (s : List Char) : Option (List Char × List Char) :=
  match s with
  | c :: r =>
    if isJsWs c then
      match matchAfterDash r with
      | some res => some res
      | none => tryGroup1 s
    else tryGroup1 s
  | [] => none

/-- `line.match(titleRe)` for
`/^-?\s*([A-Za-z .()]+?)(?:\s*[—-]\s*|\s*:\s*)(.*)$/` (ChatUI.tsx:69):
returns (group 1, group 2) on a match.  `-?` is greedy: the dash branch
is tried first; since `-` is neither whitespace nor in group 1's class,
the fallback without the dash can only fail, but it is modelled all the
same. -/
def matchTitleRe (line : List Char) : Option (List Char × List Char) :=
  match line with
  | '-' :: r =>
    (match matchAfterDash r with
     | some res => some res
     | none => matchAfterDash line)
  | _ => matchAfterDash line

/-- Worker for `collapseWsRuns`; the flag records whether a whitespace
run is in progress (its single replacement space already emitted). -/
def collapseWsAux : Bool → List Char → List Char
  | _, [] => []
  | inRun, c :: cs =>
    if isJsWs c then
      if inRun then collapseWsAux true cs else ' ' :: collapseWsAux true cs
    else c :: collapseWsAux false cs

/-- `m[1].replace(/\s+/g, ' ')`: each maximal whitespace run becomes one
space. -/
def collapseWsRuns (l : List Char) : List Char :=
  collapseWsAux false l

/-- Section title post-processing `m[1].replace(/\s+/g, ' ').trim()`
(ChatUI.tsx:79). -/
def collapseTitle (g1 : List Char) : List Char :=
  jsTrim (collapseWsRuns g1)

structure Section where
  title : List Char
  rows : List (List Char)
deriving DecidableEq, Repr

/-- The bullet test `/^-\s+/.test(line)` (ChatUI.tsx:84). -/
def bulletTest (line : List Char) : Bool :=
  match line with
  | '-' :: c :: _ => isJsWs c
  | _ => false

/-- `line.replace(/^-\s+/, '')` in the branch where the test succeeded:
drop the dash and the (greedy) whitespace run. -/
def stripBullet (line : List Char) : List Char :=
  line.tail.dropWhile isJsWs

/-- One iteration of the section-detection loop (ChatUI.tsx:71-87).
State: closed sections, and the currently open section if any. -/
def secStep (st : List Section × Option Section) (raw : List Char) : List Section × Option Section :=
  let line := jsTrim raw
  if line = [] then st
  else
    match matchTitleRe line with
    | some m =>
      let closed := match st.2 with
        | some cur => st.1 ++ [cur]
        | none => st.1
      (closed, some ⟨collapseTitle m.1, if m.2 ≠ [] then [m.2] else []⟩)
    | none =>
      match st.2 with
      | some cur =>
        (st.1, some ⟨cur.title, cur.rows ++ [if bulletTest line then stripBullet line else line]⟩)
      | none => st

/-- The section-detection pass over all lines, with the final
`if (current) sections.push(current)` (ChatUI.tsx:88). -/
def sectionPass (lines : List (List Char)) : List Section :=
  let st := List.foldl secStep ([], none) lines
  match st.2 with
  | some cur => st.1 ++ [cur]
  | none => st.1

/-- A rendering unit of the fallback path (ChatUI.tsx:126-138): a
bullet-list run flushed into one `<ul>`, a `**...**` heading, an
`a.`-style labeled sub-item, or a paragraph. -/
inductive FlatElem where
  | ul : List (List Char) → FlatElem
  | h2 : List Char → FlatElem
  | letterItem : List Char → List Char → FlatElem
  | p : List Char → FlatElem
deriving DecidableEq, Repr

/-- `flushList` (ChatUI.tsx:128). -/
def flushRun (st : List FlatElem × List (List Char)) : List FlatElem × List (List Char) :=
  if st.2 = [] then st else (st.1 ++ [FlatElem.ul st.2], [])

/-- `trimmed.slice(2, -2)`. -/
def sliceTwoTwo (l : List Char) : List Char :=
  (l.take (l.length - 2)).drop 2

/-- The test `/^[a-z]\./i.test(trimmed)` (ChatUI.tsx:133). -/
def letterDotTest (t : List Char) : Bool :=
  match t with
  | a :: b :: _ => (('A' ≤ a && a ≤ 'Z') || ('a' ≤ a && a ≤ 'z')) && b = '.'
  | _ => false

/-- One iteration of the fallback `lines.forEach` (ChatUI.tsx:129-136).
State: emitted elements, and the pending bullet-list run. -/
def fallbackStep (st : List FlatElem × List (List Char)) (line : List Char) : List FlatElem × List (List Char) :=
  let trimmed := jsTrim line
  if trimmed = [] then flushRun st
  else if leadsWith ("**".toList) trimmed && trailsWith ("**".toList) trimmed then
    let f := flushRun st
    (f.1 ++ [FlatElem.h2 (sliceTwoTwo trimmed)], f.2)
  else if letterDotTest trimmed then
    let f := flushRun st
    (f.1 ++ [FlatElem.letterItem (trimmed.take 2) (jsTrim (trimmed.drop 2))], f.2)
  else if leadsWith ("- ".toList) trimmed then
    (st.1, st.2 ++ [trimmed.drop 2])
  else
    let f := flushRun st
    (f.1 ++ [FlatElem.p line], f.2)

/-- The whole fallback pass with the final `flushList()` (ChatUI.tsx:137). -/
def fallbackPass (lines : List (List Char)) : List FlatElem :=
  (flushRun (List.foldl fallbackStep ([], []) lines)).1

/-- The shape of `formatAgentMessage`'s output: either the section
rendering (ChatUI.tsx:103-123) or the flat fallback (ChatUI.tsx:125-138). -/
inductive Doc where
  | sections : List Section → Doc
  | flat : List FlatElem → Doc
deriving DecidableEq, Repr

/-- `formatAgentMessage` (ChatUI.tsx:59-139), up to the structure that is
rendered: normalize, split into lines, run the section pass; if it found
any section render those, otherwise run the fallback pass. -/
def formatAgentMessage (content : List Char) : Doc :=
  let lines := splitNl (normalizeMsg content)
  let secs := sectionPass lines
  if secs ≠ [] then Doc.sections secs else Doc.flat (fallbackPass lines)

/-! ## Error mapping (`api.ts` catch block and `useWeatherStream`) -/

/-- A caught JavaScript error as seen by the catch block: its `name` and
`message` (`none` models a thrown non-`Error` value). -/
structure JsError where
  name : List Char
  message : List Char
deriving DecidableEq, Repr

/-- The catch block of `sendMessageToWeatherAgent` (api.ts:119-124): the
string passed to `onError`. -/
def mapCatchError (e : Option JsError) : List Char :=
  match e with
  | some err =>
    if err.name = "AbortError".toList then "Request cancelled".toList
    else err.message
  | none => "An unknown error occurred".toList

/-- The `onError` callback of `useWeatherStream` (part_000 lines 32-40):
the "friendly" string stored in the `error` observable via `setError`. -/
def friendlyError (onLine : Bool) (err : List Char) : List Char :=
  if !onLine then "You are offline. Check your connection and try again.".toList
  else if err = "Failed to fetch".toList then "Network error. Please try again.".toList
  else err

/-! ## Lemmas about the transport reader -/

theorem splitNl_ne_nil (l : List Char) : splitNl l ≠ [] := by
  induction l with
  | nil => simp [splitNl]
  | cons c cs ih =>
    simp only [splitNl]
    split
    · simp
    · split <;> simp

/-- Prepend a pending segment to the head of a split (used to describe
how `splitNl` composes across an append). -/
def mergeHead (g : List Char) : List (List Char) → List (List Char)
  | [] => [g]
  | h :: t => (g ++ h) :: t

theorem mergeHead_ne_nil (g : List Char) (ys : List (List Char)) : mergeHead g ys ≠ [] := by
  cases ys <;> simp [mergeHead]

theorem getLastD_mem {α : Type} (l : List α) (d : α) (h : l ≠ []) : l.getLastD d ∈ l := by
  induction l with
  | nil => exact absurd rfl h
  | cons a t ih =>
    cases ht : t with
    | nil => simp [List.getLastD]
    | cons b u =>
      rw [List.getLastD_cons]
      right
      rw [← ht]
      exact ht ▸ ih (by simp [ht])

theorem getLastD_append {α : Type} (x y : List α) (d : α) (h : y ≠ []) :
    (x ++ y).getLastD d = y.getLastD d := by
  rw [List.getLastD_eq_getLast?, List.getLastD_eq_getLast?, List.getLast?_append]
  cases hy : y.getLast? with
  | none =>
    rw [List.getLast?_eq_none_iff] at hy
    exact absurd hy h
  | some a => simp [Option.or]

theorem splitNl_nl_cons (cs : List Char) : splitNl ('\n' :: cs) = [] :: splitNl cs := by
  simp [splitNl]

theorem splitNl_cons_ne {c : Char} (h : c ≠ '\n') {cs : List Char} {a : List Char}
    {t : List (List Char)} (hs : splitNl cs = a :: t) :
    splitNl (c :: cs) = (c :: a) :: t := by
  simp only [splitNl, if_neg h, hs]

theorem getLastD_irrel {α : Type} {l : List α} (h : l ≠ []) (d₁ d₂ : α) :
    l.getLastD d₁ = l.getLastD d₂ := by
  rw [List.getLastD_eq_getLast?, List.getLastD_eq_getLast?]
  cases hl : l.getLast? with
  | none => exact absurd (List.getLast?_eq_none_iff.mp hl) h
  | some a => rfl

theorem nlFree_mem_splitNl {l e : List Char} (he : e ∈ splitNl l) : '\n' ∉ e := by
  induction l generalizing e with
  | nil =>
    rw [show splitNl [] = [[]] from rfl] at he
    simp at he
    subst he; simp
  | cons c cs ih =>
    by_cases h : c = '\n'
    · subst h
      rw [splitNl_nl_cons] at he
      rcases List.mem_cons.mp he with he | he
      · subst he; simp
      · exact ih he
    · cases hs : splitNl cs with
      | nil => exact absurd hs (splitNl_ne_nil cs)
      | cons a t =>
        rw [splitNl_cons_ne h hs] at he
        rcases List.mem_cons.mp he with he | he
        · subst he
          intro hm
          rcases List.mem_cons.mp hm with hm | hm
          · exact h hm.symm
          · exact ih (by rw [hs]; exact List.mem_cons_self a t) hm
        · exact ih (by rw [hs]; exact List.mem_cons_of_mem a he)

theorem splitNl_of_nlFree {l : List Char} (h : '\n' ∉ l) : splitNl l = [l] := by
  induction l with
  | nil => simp [splitNl]
  | cons c cs ih =>
    have hc : c ≠ '\n' := fun hc => h (hc ▸ List.mem_cons_self c cs)
    have hcs : '\n' ∉ cs := fun hm => h (List.mem_cons_of_mem c hm)
    simp only [splitNl, if_neg hc, ih hcs]

theorem splitNl_append (x y : List Char) :
    splitNl (x ++ y) =
      (splitNl x).dropLast ++ mergeHead ((splitNl x).getLastD []) (splitNl y) := by
  induction x with
  | nil =>
    cases hs : splitNl y with
    | nil => exact absurd hs (splitNl_ne_nil y)
    | cons h t => simp [splitNl, mergeHead, hs]
  | cons c cs ih =>
    cases hs : splitNl cs with
    | nil => exact absurd hs (splitNl_ne_nil cs)
    | cons a t =>
      rw [hs] at ih
      by_cases h : c = '\n'
      · subst h
        rw [List.cons_append, splitNl_nl_cons, splitNl_nl_cons, ih, hs]
        cases t with
        | nil => simp [List.getLastD_cons]
        | cons d t' => simp [List.getLastD_cons]
      · cases t with
        | nil =>
          cases hy : splitNl y with
          | nil => exact absurd hy (splitNl_ne_nil y)
          | cons b u =>
            have hmid : splitNl (cs ++ y) = (a ++ b) :: u := by
              rw [ih, hy]; simp [mergeHead]
            rw [List.cons_append, splitNl_cons_ne h hmid, splitNl_cons_ne h hs]
            simp [mergeHead, List.getLastD_cons, hy]
        | cons d t' =>
          have hgl : (d :: t').getLastD a = (d :: t').getLastD [] :=
            getLastD_irrel (by simp) a []
          have hmid : splitNl (cs ++ y)
              = a :: ((d :: t').dropLast ++ mergeHead ((d :: t').getLastD []) (splitNl y)) := by
            rw [ih]
            simp [List.dropLast_cons₂, List.getLastD_cons, hgl]
          rw [List.cons_append, splitNl_cons_ne h hmid, splitNl_cons_ne h hs]
          have hgl2 : (d :: t').getLastD (c :: a) = (d :: t').getLastD [] :=
            getLastD_irrel (by simp) _ []
          simp [List.dropLast_cons₂, List.getLastD_cons, hgl2]

theorem splitNl_nlFree_append {g : List Char} (hg : '\n' ∉ g) (y : List Char) :
    splitNl (g ++ y) = mergeHead g (splitNl y) := by
  rw [splitNl_append, splitNl_of_nlFree hg]
  simp [List.getLastD]

theorem decodeChunk_append (a b : List Nat) (st : DecState) :
    decodeChunk st (a ++ b) =
      ((decodeChunk (decodeChunk st a).1 b).1,
       (decodeChunk st a).2 ++ (decodeChunk (decodeChunk st a).1 b).2) := by
  induction a generalizing st with
  | nil => simp [decodeChunk]
  | cons x xs ih =>
    simp only [List.cons_append, decodeChunk, List.append_eq]
    rw [ih]
    simp [List.append_assoc]

theorem lineStep_finished (F : List (List Char)) (l : List Char) :
    lineStep (F, true) l = (F, true) := by
  simp [lineStep]

theorem foldl_lineStep_finished (F : List (List Char)) (ls : List (List Char)) :
    List.foldl lineStep (F, true) ls = (F, true) := by
  induction ls with
  | nil => rfl
  | cons l ls ih => rw [List.foldl_cons, lineStep_finished, ih]

theorem processChunk_finished {s : RState} (h : s.finished = true) (c : List Nat) :
    processChunk s c = s := by
  simp [processChunk, h]

theorem processChunk_eq {s : RState} (hf : s.finished = false) (c : List Nat) :
    processChunk s c =
      (let d := decodeChunk s.dst c
       let parts := splitNl (s.buffer ++ d.2)
       let ls := List.foldl lineStep (s.frags, false) parts.dropLast
       if ls.2 then ⟨initDecState, [], ls.1, true⟩
       else ⟨d.1, parts.getLastD [], ls.1, false⟩) := by
  simp [processChunk, hf]

/-- The heart of the chunk-invariance argument: processing two chunks in
sequence is processing their concatenation. -/
theorem processChunk_append (s : RState) (a b : List Nat) :
    processChunk (processChunk s a) b = processChunk s (a ++ b) := by
  by_cases hf : s.finished
  · rw [processChunk_finished hf, processChunk_finished hf, processChunk_finished hf]
  · have hf' : s.finished = false := by simpa using hf
    rw [processChunk_eq hf' (a ++ b), processChunk_eq hf' a]
    dsimp only
    rw [decodeChunk_append a b s.dst]
    set da := decodeChunk s.dst a with hda
    set db := decodeChunk da.1 b with hdb
    set A := splitNl (s.buffer ++ da.2) with hA
    set la := List.foldl lineStep (s.frags, false) A.dropLast with hla
    have hAne : A ≠ [] := by rw [hA]; exact splitNl_ne_nil _
    have hAB : splitNl (s.buffer ++ (da.2 ++ db.2))
        = A.dropLast ++ mergeHead (A.getLastD []) (splitNl db.2) := by
      rw [← List.append_assoc, splitNl_append, ← hA]
    set B := mergeHead (A.getLastD []) (splitNl db.2) with hB
    have hBne : B ≠ [] := by rw [hB]; exact mergeHead_ne_nil _ _
    have hABdrop : (splitNl (s.buffer ++ (da.2 ++ db.2))).dropLast
        = A.dropLast ++ B.dropLast := by
      rw [hAB, List.dropLast_append_of_ne_nil _ hBne]
    have hABlast : (splitNl (s.buffer ++ (da.2 ++ db.2))).getLastD []
        = B.getLastD [] := by
      rw [hAB, getLastD_append _ _ _ hBne]
    by_cases hla2 : la.2
    · rw [if_pos hla2]
      rw [processChunk_finished rfl b]
      have habs : List.foldl lineStep (s.frags, false)
          (splitNl (s.buffer ++ (da.2 ++ db.2))).dropLast = (la.1, true) := by
        rw [hABdrop, List.foldl_append, ← hla]
        conv_lhs => rw [show la = (la.1, true) from by rw [← hla2]]
        rw [foldl_lineStep_finished]
      rw [habs]
      simp
    · have hla2' : la.2 = false := by simpa using hla2
      rw [if_neg hla2]
      rw [processChunk_eq rfl b]
      dsimp only
      rw [← hdb]
      have hglnl : '\n' ∉ A.getLastD [] := by
        have hm := getLastD_mem A [] hAne
        rw [hA] at hm
        exact nlFree_mem_splitNl hm
      rw [splitNl_nlFree_append hglnl, ← hB]
      have hfold : List.foldl lineStep (la.1, false) B.dropLast
          = List.foldl lineStep (s.frags, false)
              (splitNl (s.buffer ++ (da.2 ++ db.2))).dropLast := by
        rw [hABdrop, List.foldl_append, ← hla]
        congr 1
        rw [← hla2']
      rw [hfold, hABlast]

theorem foldl_processChunk_flatten (cs : List (List Nat)) (c : List Nat) (s : RState) :
    List.foldl processChunk s (c :: cs) = processChunk s (c ++ cs.flatten) := by
  induction cs generalizing c s with
  | nil => simp
  | cons c2 cs ih =>
    rw [List.foldl_cons, ih, processChunk_append, List.flatten_cons]

theorem runReader_eq (chunks : List (List Nat)) :
    runReader chunks = ((List.foldl processChunk initReader chunks).frags, true) := by
  unfold runReader
  dsimp only
  split <;> rfl

/-- A case split on what a single line-loop iteration can do: leave the
state unchanged, finish on `[DONE]`, or append one non-empty fragment. -/
theorem lineStep_cases (s : List (List Char) × Bool) (l : List Char) :
    lineStep s l = s ∨ lineStep s l = (s.1, true) ∨
      ∃ t, t ≠ [] ∧ lineStep s l = (s.1 ++ [t], false) := by
  unfold lineStep
  split
  · left; rfl
  split
  · left; rfl
  split
  · dsimp only
    split
    · right; left; rfl
    · split
      next h => left; rfl
      next h => right; right; exact ⟨_, h, rfl⟩
  · dsimp only
    split
    next h => left; rfl
    next h => right; right; exact ⟨_, h, rfl⟩

theorem foldl_lineStep_nonempty (ls : List (List Char)) (s : List (List Char) × Bool)
    (h : ∀ f ∈ s.1, f ≠ []) : ∀ f ∈ (List.foldl lineStep s ls).1, f ≠ [] := by
  induction ls generalizing s with
  | nil => exact h
  | cons l ls ih =>
    rw [List.foldl_cons]
    apply ih
    rcases lineStep_cases s l with hc | hc | ⟨t, ht, hc⟩ <;> rw [hc]
    · exact h
    · exact h
    · intro f hf
      rcases List.mem_append.mp hf with hf | hf
      · exact h f hf
      · simp at hf; subst hf; exact ht

theorem processChunk_nonempty (s : RState) (h : ∀ f ∈ s.frags, f ≠ []) (c : List Nat) :
    ∀ f ∈ (processChunk s c).frags, f ≠ [] := by
  by_cases hf : s.finished
  · rw [processChunk_finished hf]; exact h
  · rw [processChunk_eq (by simpa using hf) c]
    dsimp only
    split
    · exact foldl_lineStep_nonempty _ _ h
    · exact foldl_lineStep_nonempty _ _ h

theorem foldl_processChunk_nonempty (chunks : List (List Nat)) :
    ∀ s : RState, (∀ f ∈ s.frags, f ≠ []) →
      ∀ f ∈ (List.foldl processChunk s chunks).frags, f ≠ [] := by
  induction chunks with
  | nil => exact fun s h => h
  | cons c cs ih =>
    intro s h
    rw [List.foldl_cons]
    exact ih _ (processChunk_nonempty s h c)

theorem processChunk_buffer_nlFree (s : RState) (h : '\n' ∉ s.buffer) (c : List Nat) :
    '\n' ∉ (processChunk s c).buffer := by
  by_cases hf : s.finished
  · rw [processChunk_finished hf]; exact h
  · rw [processChunk_eq (by simpa using hf) c]
    dsimp only
    split
    · simp
    · exact nlFree_mem_splitNl
        (getLastD_mem (splitNl (s.buffer ++ (decodeChunk s.dst c).2)) [] (splitNl_ne_nil _))

theorem reader_buffer_nlFree (chunks : List (List Nat)) :
    '\n' ∉ (List.foldl processChunk initReader chunks).buffer := by
  suffices h : ∀ s : RState, '\n' ∉ s.buffer →
      '\n' ∉ (List.foldl processChunk s chunks).buffer by
    exact h initReader (by simp [initReader])
  induction chunks with
  | nil => exact fun s h => h
  | cons c cs ih =>
    intro s h
    rw [List.foldl_cons]
    exact ih _ (processChunk_buffer_nlFree s h c)

/-- `lineStep` on the exact `data: [DONE]` line always finishes, keeping
the fragments gathered so far. -/
theorem lineStep_done (q : List (List Char) × Bool) :
    lineStep q ("data: [DONE]".toList) = (q.1, true) := by
  by_cases hq : q.2
  · rw [lineStep]
    simp only [hq, if_pos]
    rw [show q = (q.1, true) from by rw [← hq]]
  · have e1 : ¬(jsTrim ("data: [DONE]".toList) = []) := by decide
    have e2 : leadsWith ("data: ".toList) ("data: [DONE]".toList) = true := by decide
    have e3 : ("data: [DONE]".toList).drop 6 = "[DONE]".toList := by decide
    rw [lineStep]
    simp only [hq, e1, e2, e3, if_neg, if_pos, if_true, if_false, Bool.false_eq_true,
      not_false_iff]

/-! ## Claim theorems: transport reader -/

/-- C1: feeding the transport reader a logical byte stream split at
arbitrary chunk boundaries — including inside a multi-byte UTF-8
character or inside one line — delivers exactly the same fragment
sequence (and completion) as feeding the same bytes as a single chunk. -/
theorem c1_chunk_boundary_invariance (chunks : List (List Nat)) :
    runReader chunks = runReader [chunks.flatten] := by
  cases chunks with
  | nil => rfl
  | cons c cs =>
    rw [runReader_eq, runReader_eq, foldl_processChunk_flatten,
      show List.foldl processChunk initReader [(c :: cs).flatten]
        = processChunk initReader ((c :: cs).flatten) from by
          rw [List.foldl_cons, List.foldl_nil],
      List.flatten_cons]

/-- C3: a complete line equal to `data: [DONE]` ends the read
immediately — the fragments are exactly those gathered from the lines
before it, later lines contribute nothing, and a finished reader ignores
all further bytes; moreover `onComplete` fires on both exits of the loop
(the `[DONE]` early return and byte-stream exhaustion), so every run
reports completion. -/
theorem c3_done_sentinel :
    (∀ (F : List (List Char)) (pre post : List (List Char)),
        List.foldl lineStep (F, false) (pre ++ "data: [DONE]".toList :: post)
          = ((List.foldl lineStep (F, false) pre).1, true))
    ∧ (∀ (s : RState) (c : List Nat), s.finished = true → processChunk s c = s)
    ∧ (∀ chunks : List (List Nat), (runReader chunks).2 = true) := by
  refine ⟨?_, ?_, ?_⟩
  · intro F pre post
    rw [List.foldl_append, List.foldl_cons, lineStep_done, foldl_lineStep_finished]
  · intro s c h
    exact processChunk_finished h c
  · intro chunks
    rw [runReader_eq]

theorem c3_done_sentinel_witness :
    processChunk ⟨initDecState, [], ["hi".toList], true⟩ (asciiBytes "data: 0:\"zap\"\n")
      = ⟨initDecState, [], ["hi".toList], true⟩ :=
  c3_done_sentinel.2.1 _ _ rfl

/-- C4: every fragment the transport reader delivers is non-empty: a
whitespace-only line leaves the line-loop state untouched (it is skipped
before extraction), and the fragment list of any run contains no empty
string. -/
theorem c4_fragments_nonempty :
    (∀ (s : List (List Char) × Bool) (l : List Char), jsTrim l = [] → lineStep s l = s)
    ∧ (∀ chunks : List (List Nat), ∀ f ∈ (runReader chunks).1, f ≠ []) := by
  constructor
  · intro s l h
    rw [lineStep]
    simp [h]
  · intro chunks f hf
    rw [runReader_eq] at hf
    exact foldl_processChunk_nonempty chunks initReader (by simp [initReader]) f hf

theorem c4_fragments_nonempty_witness :
    lineStep (([], false) : List (List Char) × Bool) ("   ".toList) = ([], false) :=
  c4_fragments_nonempty.1 ([], false) ("   ".toList) (by decide)

/-- C10: when the stream is exhausted, decoded text after the final
newline (the held-back incomplete line segment) is discarded: appending a
newline-free trailing chunk never changes the delivered fragments. -/
theorem c10_trailing_segment_discarded (chunks : List (List Nat)) (extra : List Nat)
    (h : '\n' ∉ (decodeChunk (List.foldl processChunk initReader chunks).dst extra).2) :
    (List.foldl processChunk initReader (chunks ++ [extra])).frags
      = (List.foldl processChunk initReader chunks).frags := by
  rw [List.foldl_append, List.foldl_cons, List.foldl_nil]
  set s := List.foldl processChunk initReader chunks with hs
  by_cases hf : s.finished
  · rw [processChunk_finished hf]
  · rw [processChunk_eq (by simpa using hf) extra]
    dsimp only
    have hbuf : '\n' ∉ s.buffer := by rw [hs]; exact reader_buffer_nlFree chunks
    have hsingle : splitNl (s.buffer ++ (decodeChunk s.dst extra).2)
        = [s.buffer ++ (decodeChunk s.dst extra).2] := by
      apply splitNl_of_nlFree
      intro hm
      rcases List.mem_append.mp hm with hm | hm
      · exact hbuf hm
      · exact h hm
    rw [hsingle]
    simp

theorem c10_trailing_segment_discarded_witness :
    (List.foldl processChunk initReader [asciiBytes "data: 0:\"hi\""]).frags = [] := by
  have h : '\n' ∉ (decodeChunk (List.foldl processChunk initReader []).dst
      (asciiBytes "data: 0:\"hi\"")).2 := by decide
  have h2 := c10_trailing_segment_discarded [] (asciiBytes "data: 0:\"hi\"") h
  simpa using h2

/-! ## Claim theorems: error mapping (C5) -/

/-- C5 counterexample: cancellation is not silent.  When the transport
operation is aborted, the catch block (api.ts:121) passes
`'Request cancelled'` to `onError`, and the hook's error mapping
(part_000:32-40) stores exactly that cancellation message in the `error`
observable (when the device is online), contradicting the claim that the
error observable is not set to a cancellation message. -/
theorem c5_cancel_counterexample :
    mapCatchError (some ⟨"AbortError".toList, "The user aborted a request.".toList⟩)
        = "Request cancelled".toList
    ∧ friendlyError true ("Request cancelled".toList) = "Request cancelled".toList := by
  constructor <;> decide

/-- C5 (amended): a cancelled operation's promise settles (the catch
block swallows the exception), but its catch handler maps the AbortError
to `'Request cancelled'`, which the hook (when online) stores in the
user-visible `error` observable. -/
theorem c5_cancel_amended (e : JsError) (h : e.name = "AbortError".toList) :
    friendlyError true (mapCatchError (some e)) = "Request cancelled".toList := by
  simp only [mapCatchError, h, if_pos]
  decide

theorem c5_cancel_amended_witness :
    friendlyError true (mapCatchError (some ⟨"AbortError".toList, "aborted".toList⟩))
      = "Request cancelled".toList :=
  c5_cancel_amended ⟨"AbortError".toList, "aborted".toList⟩ rfl

/-! ## Claim theorems: structured renderer scenario (C6) -/

/-- C6: what `formatAgentMessage` actually produces on the spec's
scenario buffer.  `titleRe` matches the bullet rows
`- Temperature: 28C`, `- Humidity: 60%`, `- Temperature: 32C` as *title*
lines (optional dash, label, colon), so the output is five one-row
sections rather than the two two-row sections the claim describes; the
bullet-stripping row branch (ChatUI.tsx:83-85) is unreachable for those
lines, although the code's own comment names `- Temperature: ...` as its
example. -/
theorem c6_scenario_actual :
    formatAgentMessage
        (("Mumbai — Now:\n- Temperature: 28C\n- Humidity: 60%\nDelhi — Tomorrow:\n- Temperature: 32C").toList)
      = Doc.sections
          [⟨"Mumbai".toList, ["Now:".toList]⟩,
           ⟨"Temperature".toList, ["28C".toList]⟩,
           ⟨"Humidity".toList, ["60%".toList]⟩,
           ⟨"Delhi".toList, ["Tomorrow:".toList]⟩,
           ⟨"Temperature".toList, ["32C".toList]⟩] := by
  decide

/-! ## Claim theorems: metadata objects (C8) -/

/-- C8 counterexample: a bare JSON object that *contains* a `toolCallId`
field whose value is falsy (the empty string) is returned unchanged —
the guard at api.ts:57 tests truthiness, not presence — so `extract`
does not return the empty string on it. -/
theorem c8_meta_counterexample :
    jsonParse (("\x7b\"toolCallId\":\"\"\x7d").toList)
        = some (Json.obj [("toolCallId".toList, Json.str [])])
    ∧ extractTextFromTokenStream (("\x7b\"toolCallId\":\"\"\x7d").toList)
        = ("\x7b\"toolCallId\":\"\"\x7d").toList
    ∧ ("\x7b\"toolCallId\":\"\"\x7d").toList ≠ [] := by
  have hsc : scanTokens (("\x7b\"toolCallId\":\"\"\x7d").toList) = [] := by
    decide
  refine ⟨rfl, ?_, by decide⟩
  unfold extractTextFromTokenStream
  rw [hsc]
  decide

/-! ## Lemmas about the extractor's guards -/

theorem jsTrimEnd_of_getLast {t : List Char} {c : Char} (h : t.getLast? = some c)
    (hc : isJsWs c = false) : jsTrimEnd t = t := by
  obtain ⟨rest, hr⟩ : ∃ rest, t.reverse = c :: rest := by
    have hrev : t.reverse.head? = some c := by rw [List.head?_reverse]; exact h
    cases hx : t.reverse with
    | nil => rw [hx] at hrev; exact absurd hrev (by simp)
    | cons a as =>
      rw [hx] at hrev
      simp at hrev
      subst hrev
      exact ⟨as, rfl⟩
  unfold jsTrimEnd
  rw [hr, List.dropWhile_cons]
  simp only [hc, Bool.false_eq_true, if_false]
  rw [← hr, List.reverse_reverse]

/-- C8 (amended): on an input whose start-trimmed form begins with `{`
and ends with `}` (the code checks `endsWith` on the *start*-trimmed
string only), which matches no `digits:"…"` token anywhere, and which
parses as JSON to an object carrying a *truthy* value (e.g. a non-empty
string) in one of `toolCallId`, `toolName`, `messageId`, `finishReason`,
the extractor returns the empty string. -/
theorem c8_meta_amended (raw : List Char)
    (h1 : (jsTrimStart raw).head? = some '\x7b')
    (h2 : (jsTrimStart raw).getLast? = some '\x7d')
    (h3 : scanTokens raw = [])
    (j : Json) (h4 : jsonParse (jsTrimStart raw) = some j)
    (h5 : hasTruthyMetaField j = true) :
    extractTextFromTokenStream raw = [] := by
  have htrim : jsTrim raw = jsTrimStart raw := by
    unfold jsTrim
    exact jsTrimEnd_of_getLast h2 (by decide)
  obtain ⟨ts, hts⟩ : ∃ ts, jsTrimStart raw = '\x7b' :: ts := by
    cases hx : jsTrimStart raw with
    | nil => rw [hx] at h1; exact absurd h1 (by simp)
    | cons a as =>
      rw [hx] at h1
      simp at h1
      subst h1
      exact ⟨as, rfl⟩
  have hfaed : faedColonTest (jsTrim raw) = false := by
    rw [htrim, hts]
    cases ts with
    | nil => rfl
    | cons b bs => rfl
  have hdig : digitColonTest (jsTrimStart raw) = false := by
    rw [hts]; rfl
  unfold extractTextFromTokenStream
  rw [h3]
  simp [hfaed, hdig, h1, h2, h4, h5]

theorem c8_meta_amended_witness :
    extractTextFromTokenStream (("\x7b\"toolCallId\":\"abc\"\x7d").toList) = [] := by
  have h3 : scanTokens (("\x7b\"toolCallId\":\"abc\"\x7d").toList) = [] := by
    decide
  exact c8_meta_amended _ rfl rfl h3
    (Json.obj [("toolCallId".toList, Json.str ("abc".toList))]) rfl rfl

/-! ## C9: the `digits:` guard with no token and no brace pair -/

theorem jsIndexOf_cases (c : Char) (l : List Char) :
    (jsIndexOf c l = -1 ∧ c ∉ l) ∨ (0 ≤ jsIndexOf c l ∧ c ∈ l) := by
  induction l with
  | nil => left; exact ⟨rfl, by simp⟩
  | cons a as ih =>
    by_cases h : a = c
    · right
      refine ⟨?_, ?_⟩
      · rw [jsIndexOf]; simp [h]
      · subst h; exact List.mem_cons_self a as
    · rcases ih with ⟨ih1, ih2⟩ | ⟨ih1, ih2⟩
      · left
        refine ⟨?_, ?_⟩
        · rw [jsIndexOf]; simp [h, ih1]
        · intro hm
          rcases List.mem_cons.mp hm with hm | hm
          · exact h hm.symm
          · exact ih2 hm
      · right
        refine ⟨?_, ?_⟩
        · rw [jsIndexOf]
          have hne : jsIndexOf c as ≠ -1 := by omega
          simp [h, hne]
          omega
        · exact List.mem_cons_of_mem a ih2

theorem jsLastIndexOf_cases (c : Char) (l : List Char) :
    (jsLastIndexOf c l = -1 ∧ c ∉ l) ∨ (0 ≤ jsLastIndexOf c l ∧ c ∈ l) := by
  induction l with
  | nil => left; exact ⟨rfl, by simp⟩
  | cons a as ih =>
    rcases ih with ⟨ih1, ih2⟩ | ⟨ih1, ih2⟩
    · by_cases h : a = c
      · right
        refine ⟨?_, ?_⟩
        · rw [jsLastIndexOf]; simp [ih1, h]
        · subst h; exact List.mem_cons_self a as
      · left
        refine ⟨?_, ?_⟩
        · rw [jsLastIndexOf]; simp [ih1, h]
        · intro hm
          rcases List.mem_cons.mp hm with hm | hm
          · exact h hm.symm
          · exact ih2 hm
    · right
      refine ⟨?_, ?_⟩
      · rw [jsLastIndexOf]
        have hne : jsLastIndexOf c as ≠ -1 := by omega
        simp [hne]
        omega
      · exact List.mem_cons_of_mem a ih2

/-- The claim-side reading of the brace test: the string has an opening
brace with a closing brace strictly after it. -/
def hasOpenClose : List Char → Prop
  | [] => False
  | a :: as => if a = '\x7b' then '\x7d' ∈ as else hasOpenClose as

instance instDecHasOpenClose : (l : List Char) → Decidable (hasOpenClose l)
  | [] => isFalse id
  | a :: as =>
    haveI := instDecHasOpenClose as
    have he : hasOpenClose (a :: as)
        = if a = '\x7b' then ('\x7d' ∈ as : Prop) else hasOpenClose as := rfl
    if h : a = '\x7b' then
      decidable_of_iff ('\x7d' ∈ as) (by rw [he, if_pos h])
    else
      decidable_of_iff (hasOpenClose as) (by rw [he, if_neg h])

theorem hasOpenClose_close_mem {l : List Char} (h : hasOpenClose l) : '\x7d' ∈ l := by
  induction l with
  | nil => exact absurd h id
  | cons a as ih =>
    unfold hasOpenClose at h
    split at h
    · exact List.mem_cons_of_mem a h
    · exact List.mem_cons_of_mem a (ih h)

theorem hasOpenClose_open_mem {l : List Char} (h : hasOpenClose l) : '\x7b' ∈ l := by
  induction l with
  | nil => exact absurd h id
  | cons a as ih =>
    unfold hasOpenClose at h
    split at h
    next ha => subst ha; exact List.mem_cons_self _ _
    next => exact List.mem_cons_of_mem a (ih h)

theorem brace_prop_iff (l : List Char) :
    (jsIndexOf '\x7b' l ≠ -1 ∧ jsLastIndexOf '\x7d' l ≠ -1 ∧
      jsIndexOf '\x7b' l < jsLastIndexOf '\x7d' l) ↔ hasOpenClose l := by
  induction l with
  | nil => simp [jsIndexOf, jsLastIndexOf, hasOpenClose]
  | cons a as ih =>
    rcases jsLastIndexOf_cases '\x7d' as with ⟨hr, hmem⟩ | ⟨hr, hmem⟩
    · have hnoc : ¬ hasOpenClose as := fun h => hmem (hasOpenClose_close_mem h)
      by_cases ha : a = '\x7b'
      · rw [show hasOpenClose (a :: as)
            = if a = '\x7b' then ('\x7d' ∈ as : Prop) else hasOpenClose as from rfl,
          if_pos ha]
        have hane : a ≠ '\x7d' := by rw [ha]; decide
        have hlast : jsLastIndexOf '\x7d' (a :: as) = -1 := by
          rw [jsLastIndexOf]; simp [hr, hane]
        constructor
        · rintro ⟨h1, h2, h3⟩
          exact absurd hlast h2
        · intro h
          exact absurd h hmem
      · rw [show hasOpenClose (a :: as)
            = if a = '\x7b' then ('\x7d' ∈ as : Prop) else hasOpenClose as from rfl,
          if_neg ha]
        by_cases ha2 : a = '\x7d'
        · have hlast : jsLastIndexOf '\x7d' (a :: as) = 0 := by
            rw [jsLastIndexOf]; simp [hr, ha2]
          constructor
          · rintro ⟨h1, h2, h3⟩
            rcases jsIndexOf_cases '\x7b' (a :: as) with ⟨hi, _⟩ | ⟨hi, _⟩
            · exact absurd hi h1
            · omega
          · intro h
            exact absurd h hnoc
        · have hlast : jsLastIndexOf '\x7d' (a :: as) = -1 := by
            rw [jsLastIndexOf]; simp [hr, ha2]
          constructor
          · rintro ⟨h1, h2, h3⟩
            exact absurd hlast h2
          · intro h
            exact absurd h hnoc
    · have hlast : jsLastIndexOf '\x7d' (a :: as) = jsLastIndexOf '\x7d' as + 1 := by
        rw [jsLastIndexOf]
        have hne : jsLastIndexOf '\x7d' as ≠ -1 := by omega
        simp [hne]
      by_cases ha : a = '\x7b'
      · rw [show hasOpenClose (a :: as)
            = if a = '\x7b' then ('\x7d' ∈ as : Prop) else hasOpenClose as from rfl,
          if_pos ha]
        have hidx : jsIndexOf '\x7b' (a :: as) = 0 := by
          rw [jsIndexOf]; simp [ha]
        constructor
        · intro _
          exact hmem
        · intro _
          refine ⟨by omega, by omega, by omega⟩
      · rw [show hasOpenClose (a :: as)
            = if a = '\x7b' then ('\x7d' ∈ as : Prop) else hasOpenClose as from rfl,
          if_neg ha]
        rw [← ih]
        rcases jsIndexOf_cases '\x7b' as with ⟨hi, hmi⟩ | ⟨hi, hmi⟩
        · have hidx : jsIndexOf '\x7b' (a :: as) = -1 := by
            rw [jsIndexOf]; simp [ha, hi]
          constructor
          · rintro ⟨h1, _, _⟩
            exact absurd hidx h1
          · rintro ⟨h1, _, _⟩
            exact absurd hi h1
        · have hidx : jsIndexOf '\x7b' (a :: as) = jsIndexOf '\x7b' as + 1 := by
            rw [jsIndexOf]
            have hne : jsIndexOf '\x7b' as ≠ -1 := by omega
            simp [ha, hne]
          constructor
          · rintro ⟨h1, h2, h3⟩
            exact ⟨by omega, by omega, by omega⟩
          · rintro ⟨h1, h2, h3⟩
            exact ⟨by omega, by omega, by omega⟩

/-- The code's `indexOf`/`lastIndexOf` brace test is exactly "some `{`
occurs with some `}` after it". -/
theorem bracePairCond_iff (l : List Char) : bracePairCond l = true ↔ hasOpenClose l := by
  have hb : bracePairCond l = true ↔
      (jsIndexOf '\x7b' l ≠ -1 ∧ jsLastIndexOf '\x7d' l ≠ -1 ∧
        jsIndexOf '\x7b' l < jsLastIndexOf '\x7d' l) := by
    simp [bracePairCond, and_assoc]
  rw [hb, brace_prop_iff]

theorem jsTrimEnd_front_form (l : List Char) : ∃ t, jsTrimEnd l ++ t = l := by
  obtain ⟨t, ht⟩ := List.rdropWhile_prefix isJsWs l
  exact ⟨t, ht⟩

/-- After end-trimming, a string that began with a digit still begins
with that digit (or is empty), so the `[faed]:` control test fails. -/
theorem faed_after_trimEnd {a : Char} (ha : a.isDigit = true) (as : List Char) :
    faedColonTest (jsTrimEnd (a :: as)) = false := by
  obtain ⟨t, ht⟩ := jsTrimEnd_front_form (a :: as)
  cases hx : jsTrimEnd (a :: as) with
  | nil => rfl
  | cons b bs =>
    rw [hx] at ht
    have hb : b = a := by
      have hh := congrArg List.head? ht
      simp at hh
      exact hh
    subst hb
    cases bs with
    | nil => rfl
    | cons c2 cs2 =>
      have hbounds : ('0' ≤ b ∧ b ≤ '9') := by
        have hd := ha
        simp [Char.isDigit, Bool.and_eq_true] at hd
        exact hd
      obtain ⟨hb1, hb2⟩ := hbounds
      have hne : ∀ x ∈ (['f', 'a', 'e', 'd', 'F', 'A', 'E', 'D'] : List Char),
          (b == x) = false := by
        intro x hx2
        rw [beq_eq_false_iff_ne]
        intro he
        subst he
        fin_cases hx2 <;> (revert hb1 hb2; decide)
      simp [faedColonTest, hne 'f' (by simp), hne 'a' (by simp), hne 'e' (by simp),
        hne 'd' (by simp), hne 'F' (by simp), hne 'A' (by simp), hne 'E' (by simp),
        hne 'D' (by simp)]

/-- C9: an input whose start-trimmed content begins with digits and a
colon, but which matches no `digits:"…"` token and whose remainder after
the `digits:` has no `{` followed later by `}`, is swallowed: the
extractor returns the empty string instead of passing the plain text
through. -/
theorem c9_digit_colon_swallowed (raw : List Char)
    (h1 : digitColonTest (jsTrimStart raw) = true)
    (h2 : scanTokens raw = [])
    (h3 : ¬ hasOpenClose (dropDigitColon (jsTrimStart raw))) :
    extractTextFromTokenStream raw = [] := by
  obtain ⟨a, as, hts, ha⟩ : ∃ a as, jsTrimStart raw = a :: as ∧ a.isDigit = true := by
    cases hx : jsTrimStart raw with
    | nil =>
      rw [hx] at h1
      exact absurd h1 (by decide)
    | cons a as =>
      refine ⟨a, as, rfl, ?_⟩
      by_cases hd : a.isDigit
      · exact hd
      · rw [hx] at h1
        rw [digitColonTest] at h1
        simp [List.takeWhile_cons, hd] at h1
  have hfaed : faedColonTest (jsTrim raw) = false := by
    unfold jsTrim
    rw [hts]
    exact faed_after_trimEnd ha as
  have hbr : bracePairCond (dropDigitColon (jsTrimStart raw)) = false := by
    cases hb : bracePairCond (dropDigitColon (jsTrimStart raw))
    · rfl
    · exact absurd ((bracePairCond_iff _).mp hb) h3
  unfold extractTextFromTokenStream
  rw [h2]
  simp [hfaed, h1, hbr]

theorem c9_digit_colon_swallowed_witness :
    extractTextFromTokenStream ("3:2 odds".toList) = [] := by
  have h2 : scanTokens ("3:2 odds".toList) = [] := by
    decide
  exact c9_digit_colon_swallowed _ (by decide) h2 (by decide)

/-! ## C2: the token scan on well-formed token frames -/

theorem tryMatchAt_none_of_noQuote {s : List Char} (h : ∀ ch ∈ s, ch ≠ '"') :
    tryMatchAt s = none := by
  simp only [tryMatchAt]
  split
  · rfl
  next hds =>
    split
    next r2 heq =>
      have hmem : '"' ∈ s := by
        have hsub := (List.dropWhile_sublist (l := s) Char.isDigit).subset
        apply hsub
        rw [heq]
        simp
      exact absurd rfl (h '"' hmem)
    next => rfl

theorem scanTokens_of_noQuote {l : List Char} (h : ∀ ch ∈ l, ch ≠ '"') :
    scanTokens l = [] := by
  induction l with
  | nil => rfl
  | cons c cs ih =>
    have hn : tryMatchAt (c :: cs) = none := tryMatchAt_none_of_noQuote h
    show scanTokensF (c :: cs).length (c :: cs) = []
    simp only [List.length_cons, scanTokensF, hn]
    exact ih (fun x hx => h x (List.mem_cons_of_mem c hx))

theorem takeWhile_append_of_all {p : Char → Bool} {l1 : List Char}
    (h : ∀ x ∈ l1, p x = true) (l2 : List Char) :
    (l1 ++ l2).takeWhile p = l1 ++ l2.takeWhile p := by
  induction l1 with
  | nil => simp
  | cons a as ih =>
    have hpa : p a = true := h a (List.mem_cons_self a as)
    simp [List.takeWhile_cons, hpa,
      ih (fun x hx => h x (List.mem_cons_of_mem a hx))]

theorem dropWhile_append_of_all {p : Char → Bool} {l1 : List Char}
    (h : ∀ x ∈ l1, p x = true) (l2 : List Char) :
    (l1 ++ l2).dropWhile p = l2.dropWhile p := by
  induction l1 with
  | nil => simp
  | cons a as ih =>
    simp [List.dropWhile_cons, h a (List.mem_cons_self a as),
      ih (fun x hx => h x (List.mem_cons_of_mem a hx))]

theorem dropWhile_append_of_ne_nil {p : Char → Bool} {x : List Char} {z : Char}
    {zs : List Char} (h : x.dropWhile p = z :: zs) (y : List Char) :
    (x ++ y).dropWhile p = z :: (zs ++ y) := by
  induction x with
  | nil => exact absurd h (by simp)
  | cons a as ih =>
    rw [List.cons_append, List.dropWhile_cons]
    rw [List.dropWhile_cons] at h
    by_cases hpa : p a
    · simp only [hpa, if_true] at h ⊢
      exact ih h
    · simp only [hpa, Bool.false_eq_true, if_false] at h ⊢
      injection h with h1 h2
      subst h1
      subst h2
      rfl

/-- `tryMatchAt` on a well-formed token `digits:"body"` followed by
anything: the capture is exactly the quote-free body. -/
theorem tryMatchAt_token {d c : List Char} (rest : List Char) (hd : d ≠ [])
    (hdig : ∀ x ∈ d, x.isDigit = true) (hc : ∀ x ∈ c, x ≠ '"') :
    tryMatchAt (d ++ ':' :: '"' :: (c ++ '"' :: rest)) = some (c, rest) := by
  have hcolon : Char.isDigit ':' = false := rfl
  have h1 : (d ++ ':' :: '"' :: (c ++ '"' :: rest)).takeWhile Char.isDigit = d := by
    rw [takeWhile_append_of_all hdig]
    simp [List.takeWhile_cons, hcolon]
  have h2 : (d ++ ':' :: '"' :: (c ++ '"' :: rest)).dropWhile Char.isDigit
      = ':' :: '"' :: (c ++ '"' :: rest) := by
    rw [dropWhile_append_of_all hdig]
    simp [List.dropWhile_cons, hcolon]
  have hde : d.isEmpty = false := by
    cases d with
    | nil => exact absurd rfl hd
    | cons _ _ => rfl
  have hcq : ∀ x ∈ c, (fun ch => decide (ch ≠ '"')) x = true := by
    intro x hx
    simpa using hc x hx
  have h3 : (c ++ '"' :: rest).takeWhile (fun ch => decide (ch ≠ '"')) = c := by
    rw [takeWhile_append_of_all hcq]
    simp [List.takeWhile_cons]
  have h4 : (c ++ '"' :: rest).dropWhile (fun ch => decide (ch ≠ '"')) = '"' :: rest := by
    rw [dropWhile_append_of_all hcq]
    simp [List.dropWhile_cons]
  simp only [tryMatchAt]
  rw [h1, h2]
  simp only [hde, Bool.false_eq_true, if_false]
  rw [h3, h4]
  rfl

/-- If `tryMatchAt` succeeds on a quote-free stretch followed by a
well-formed token, the match is forced to be that token. -/
theorem tryMatchAt_some_eq {x c rest tok r : List Char}
    (hx : ∀ ch ∈ x, ch ≠ '"') (hc : ∀ ch ∈ c, ch ≠ '"')
    (h : tryMatchAt (x ++ ':' :: '"' :: (c ++ '"' :: rest)) = some (tok, r)) :
    tok = c ∧ r = rest := by
  cases hdx : x.dropWhile Char.isDigit with
  | nil =>
    have hall : ∀ ch ∈ x, Char.isDigit ch = true := by
      intro ch hch
      exact List.dropWhile_eq_nil_iff.mp hdx ch hch
    have hdall : (x ++ ':' :: '"' :: (c ++ '"' :: rest)).dropWhile Char.isDigit
        = ':' :: '"' :: (c ++ '"' :: rest) := by
      rw [dropWhile_append_of_all hall]
      simp [List.dropWhile_cons, show Char.isDigit ':' = false from rfl]
    cases hxe : x with
    | nil =>
      rw [hxe] at h
      have hn : tryMatchAt ([] ++ ':' :: '"' :: (c ++ '"' :: rest)) = none := by
        unfold tryMatchAt
        simp [List.takeWhile_cons, show Char.isDigit ':' = false from rfl]
      rw [hn] at h
      exact absurd h (by simp)
    | cons x0 xs =>
      have hm := tryMatchAt_token rest (show x ≠ [] by rw [hxe]; simp) hall hc
      rw [hm] at h
      injection h with h'
      injection h' with h1 h2
      exact ⟨h1.symm, h2.symm⟩
  | cons z zs =>
    have hda : (x ++ ':' :: '"' :: (c ++ '"' :: rest)).dropWhile Char.isDigit
        = z :: (zs ++ ':' :: '"' :: (c ++ '"' :: rest)) :=
      dropWhile_append_of_ne_nil hdx _
    have hsubx := (List.dropWhile_sublist (l := x) Char.isDigit).subset
    simp only [tryMatchAt] at h
    rw [hda] at h
    split at h
    · exact absurd h (by simp)
    · split at h
      next r2 heq =>
        cases zs with
        | nil =>
          injection heq with e1 e2
          injection e2 with e3 _
          exact absurd e3 (by decide)
        | cons w ws =>
          injection heq with e1 e2
          injection e2 with e3 _
          have hwx : w ∈ x := by
            apply hsubx
            rw [hdx]
            simp
          exact absurd e3 (hx w hwx)
      next =>
        exact absurd h (by simp)

/-- The well-formed frame layout of the claim: separators, a digit index,
a quoted body, repeated, followed by a final stretch. -/
def tokenFrames : List (List Char × List Char × List Char) → List Char → List Char
  | [], fin => fin
  | (sep, d, c) :: ts, fin =>
    sep ++ (d ++ ':' :: '"' :: (c ++ '"' :: tokenFrames ts fin))

theorem scanTokens_token (rest : List Char) {pre d c : List Char}
    (hpre : ∀ ch ∈ pre, ch ≠ '"') (hd : d ≠ [])
    (hdig : ∀ ch ∈ d, ch.isDigit = true) (hc : ∀ ch ∈ c, ch ≠ '"') :
    scanTokens (pre ++ (d ++ ':' :: '"' :: (c ++ '"' :: rest)))
      = c :: scanTokens rest := by
  induction pre with
  | nil =>
    cases d with
    | nil => exact absurd rfl hd
    | cons d0 d' =>
      have hm : tryMatchAt ((d0 :: d') ++ ':' :: '"' :: (c ++ '"' :: rest))
          = some (c, rest) :=
        tryMatchAt_token rest (by simp) hdig hc
      rw [List.nil_append, List.cons_append]
      rw [List.cons_append] at hm
      have hlen := tryMatchAt_length hm
      simp only [List.length_cons] at hlen
      show scanTokensF (d0 :: (d' ++ ':' :: '"' :: (c ++ '"' :: rest))).length
          (d0 :: (d' ++ ':' :: '"' :: (c ++ '"' :: rest))) = c :: scanTokens rest
      simp only [List.length_cons, scanTokensF, hm]
      rw [← scanTokens_eq_f (by omega)]
  | cons p0 pre' ih =>
    rw [List.cons_append]
    show scanTokensF (p0 :: (pre' ++ (d ++ ':' :: '"' :: (c ++ '"' :: rest)))).length
        (p0 :: (pre' ++ (d ++ ':' :: '"' :: (c ++ '"' :: rest)))) = c :: scanTokens rest
    cases hm : tryMatchAt (p0 :: (pre' ++ (d ++ ':' :: '"' :: (c ++ '"' :: rest)))) with
    | some pr =>
      obtain ⟨tok, r⟩ := pr
      have hxq : ∀ ch ∈ (p0 :: pre') ++ d, ch ≠ '"' := by
        intro ch hch
        rcases List.mem_append.mp hch with hch | hch
        · exact hpre ch hch
        · intro he
          subst he
          have hq := hdig '"' hch
          revert hq
          decide
      have hm2 : tryMatchAt (((p0 :: pre') ++ d) ++ ':' :: '"' :: (c ++ '"' :: rest))
          = some (tok, r) := by
        rw [List.append_assoc, List.cons_append]
        exact hm
      have heq := tryMatchAt_some_eq hxq hc hm2
      obtain ⟨he1, he2⟩ := heq
      subst he1
      subst he2
      have hlen := tryMatchAt_length hm
      simp only [List.length_cons] at hlen
      simp only [List.length_cons, scanTokensF, hm]
      rw [← scanTokens_eq_f (by omega)]
    | none =>
      simp only [List.length_cons, scanTokensF, hm]
      exact ih (fun ch hch => hpre ch (List.mem_cons_of_mem p0 hch))

theorem scanTokens_frames (ts : List (List Char × List Char × List Char))
    (fin : List Char)
    (hts : ∀ t ∈ ts, (∀ ch ∈ t.1, ch ≠ '"') ∧ t.2.1 ≠ []
      ∧ (∀ ch ∈ t.2.1, ch.isDigit = true) ∧ (∀ ch ∈ t.2.2, ch ≠ '"'))
    (hfin : ∀ ch ∈ fin, ch ≠ '"') :
    scanTokens (tokenFrames ts fin) = ts.map (fun t => t.2.2) := by
  induction ts with
  | nil => exact scanTokens_of_noQuote hfin
  | cons t ts ih =>
    obtain ⟨sep, d, c⟩ := t
    obtain ⟨h1, h2, h3, h4⟩ := hts _ (List.mem_cons_self _ _)
    rw [show tokenFrames ((sep, d, c) :: ts) fin
        = sep ++ (d ++ ':' :: '"' :: (c ++ '"' :: tokenFrames ts fin)) from rfl]
    rw [scanTokens_token _ h1 h2 h3 h4]
    rw [ih (fun u hu => hts u (List.mem_cons_of_mem _ hu))]
    rfl

/-- C2: on an input made of one or more `digits:"body"` tokens (quote-free
separators, digit indices, quote-free bodies) that is not a control
frame, the extractor returns exactly the concatenation of the bodies in
order, independent of the digit indices. -/
theorem c2_token_concatenation (ts : List (List Char × List Char × List Char))
    (fin : List Char) (hne : ts ≠ [])
    (hts : ∀ t ∈ ts, (∀ ch ∈ t.1, ch ≠ '"') ∧ t.2.1 ≠ []
      ∧ (∀ ch ∈ t.2.1, ch.isDigit = true) ∧ (∀ ch ∈ t.2.2, ch ≠ '"'))
    (hfin : ∀ ch ∈ fin, ch ≠ '"')
    (hctl : faedColonTest (jsTrim (tokenFrames ts fin)) = false) :
    extractTextFromTokenStream (tokenFrames ts fin)
      = (ts.map (fun t => t.2.2)).flatten := by
  unfold extractTextFromTokenStream
  rw [scanTokens_frames ts fin hts hfin]
  have hmapne : ts.map (fun t => t.2.2) ≠ [] := by
    cases ts with
    | nil => exact absurd rfl hne
    | cons t ts => simp
  have hmape : (ts.map (fun t => t.2.2)).isEmpty = false := by
    cases hmm : ts.map (fun t => t.2.2) with
    | nil => exact absurd hmm hmapne
    | cons a b => rfl
  simp [hctl, hmape]

theorem c2_token_concatenation_witness :
    extractTextFromTokenStream
        (tokenFrames
          [([], "0".toList, "Hello".toList), ([' '], "12".toList, " world".toList)]
          ("!".toList))
      = "Hello world".toList :=
  (c2_token_concatenation
      [([], "0".toList, "Hello".toList), ([' '], "12".toList, " world".toList)]
      ("!".toList) (by decide) (by decide) (by decide) (by decide)).trans (by decide)

/-! ## C7: append monotonicity of the section pass -/

/-- The final `if (current) sections.push(current)` of the section pass. -/
def finishSections (st : List Section × Option Section) : List Section :=
  match st.2 with
  | some cur => st.1 ++ [cur]
  | none => st.1

theorem sectionPass_eq_finish (lines : List (List Char)) :
    sectionPass lines = finishSections (List.foldl secStep ([], none) lines) := rfl

theorem secStep_blank {st : List Section × Option Section} {l : List Char}
    (h : jsTrim l = []) : secStep st l = st := by
  unfold secStep
  simp [h]

theorem secStep_title {st : List Section × Option Section} {l : List Char}
    {m : List Char × List Char} (h : jsTrim l ≠ [])
    (hm : matchTitleRe (jsTrim l) = some m) :
    secStep st l = ((match st.2 with
        | some cur => st.1 ++ [cur]
        | none => st.1),
      some ⟨collapseTitle m.1, if m.2 ≠ [] then [m.2] else []⟩) := by
  unfold secStep
  simp [h, hm]

theorem secStep_row {st : List Section × Option Section} {l : List Char}
    (h : jsTrim l ≠ []) (hm : matchTitleRe (jsTrim l) = none) :
    secStep st l = (match st.2 with
      | some cur => (st.1, some ⟨cur.title,
          cur.rows ++ [if bulletTest (jsTrim l) then stripBullet (jsTrim l) else jsTrim l]⟩)
      | none => st) := by
  unfold secStep
  simp [h, hm]

/-- While no title line has matched, no section has been closed. -/
theorem foldl_secStep_none (lines : List (List Char)) :
    ∀ st : List Section × Option Section, (st.2 = none → st.1 = []) →
      (List.foldl secStep st lines).2 = none → (List.foldl secStep st lines).1 = [] := by
  induction lines with
  | nil => exact fun st h => h
  | cons l ls ih =>
    intro st h
    rw [List.foldl_cons]
    apply ih
    by_cases hb : jsTrim l = []
    · rw [secStep_blank hb]
      exact h
    · cases hm : matchTitleRe (jsTrim l) with
      | some m =>
        rw [secStep_title hb hm]
        intro hq
        exact absurd hq (by simp)
      | none =>
        rw [secStep_row hb hm]
        cases hcur : st.2 with
        | some cur =>
          intro hq
          simp at hq
        | none => exact h

/-- Processing more lines from an open section only appends rows to it,
closes it unchanged, and appends further sections after it. -/
theorem foldl_secStep_some (M : List (List Char)) :
    ∀ (d : List Section) (c : Section),
      ∃ e rest', finishSections (List.foldl secStep (d, some c) M)
        = d ++ ⟨c.title, c.rows ++ e⟩ :: rest' := by
  induction M with
  | nil =>
    intro d c
    refine ⟨[], [], ?_⟩
    simp [finishSections]
  | cons l M ih =>
    intro d c
    rw [List.foldl_cons]
    by_cases hb : jsTrim l = []
    · rw [secStep_blank hb]
      exact ih d c
    · cases hm : matchTitleRe (jsTrim l) with
      | some m =>
        rw [secStep_title hb hm]
        dsimp only
        obtain ⟨e, r', hr⟩ :=
          ih (d ++ [c]) ⟨collapseTitle m.1, if m.2 ≠ [] then [m.2] else []⟩
        refine ⟨[], ⟨collapseTitle m.1, (if m.2 ≠ [] then [m.2] else []) ++ e⟩ :: r', ?_⟩
        rw [hr]
        simp
      | none =>
        rw [secStep_row hb hm]
        dsimp only
        obtain ⟨e, r', hr⟩ :=
          ih d ⟨c.title, c.rows
            ++ [if bulletTest (jsTrim l) then stripBullet (jsTrim l) else jsTrim l]⟩
        refine ⟨(if bulletTest (jsTrim l) then stripBullet (jsTrim l) else jsTrim l) :: e,
          r', ?_⟩
        rw [hr]
        simp

/-- C7 counterexample: appending text can flip the renderer from the
paragraph fallback into section mode and drop an earlier, already
rendered paragraph.  `"x\ny"` renders as two paragraphs; appending
`": z"` makes the last line a title match, and the new output is a
single section — the paragraph `x` is gone. -/
theorem c7_counterexample :
    formatAgentMessage ("x\ny".toList)
        = Doc.flat [FlatElem.p ("x".toList), FlatElem.p ("y".toList)]
    ∧ formatAgentMessage ("x\ny: z".toList)
        = Doc.sections [⟨"y".toList, ["z".toList]⟩] := by
  constructor <;> decide

/-- C7 (amended): at the granularity of complete lines and once section
mode has been reached, the property holds: if the lines seen so far
already yield at least one section, then processing those lines followed
by any further lines preserves every closed section unchanged, and only
appends rows to the last open section or adds new sections after it.  (At
the raw-buffer level the claim fails: while the renderer is still in
paragraph fallback, an append can retroactively restructure the whole
output, dropping earlier paragraphs.) -/
theorem c7_sections_append_monotonic (L M : List (List Char))
    (h : sectionPass L ≠ []) :
    ∃ S₁ t r e rest', sectionPass L = S₁ ++ [Section.mk t r]
      ∧ sectionPass (L ++ M) = S₁ ++ Section.mk t (r ++ e) :: rest' := by
  set stL := List.foldl secStep (([] : List Section), (none : Option Section)) L with hstL
  cases hsnd : stL.2 with
  | none =>
    have h0 : stL.1 = [] := by
      rw [hstL]
      apply foldl_secStep_none L ([], none) (fun _ => rfl)
      rw [← hstL]
      exact hsnd
    have : sectionPass L = [] := by
      rw [sectionPass_eq_finish, ← hstL]
      unfold finishSections
      rw [hsnd]
      exact h0
    exact absurd this h
  | some c =>
    obtain ⟨e, rest', hr⟩ := foldl_secStep_some M stL.1 c
    refine ⟨stL.1, c.title, c.rows, e, rest', ?_, ?_⟩
    · rw [sectionPass_eq_finish, ← hstL]
      unfold finishSections
      rw [hsnd]
    · rw [sectionPass_eq_finish, List.foldl_append, ← hstL]
      have hst : List.foldl secStep stL M = List.foldl secStep (stL.1, some c) M := by
        congr 1
        rw [← hsnd]
      rw [hst, hr]

theorem c7_sections_append_monotonic_witness :
    ∃ S₁ t r e rest', sectionPass ["A: x".toList] = S₁ ++ [Section.mk t r]
      ∧ sectionPass (["A: x".toList] ++ ["y".toList, "B: z".toList])
          = S₁ ++ Section.mk t (r ++ e) :: rest' :=
  c7_sections_append_monotonic ["A: x".toList] ["y".toList, "B: z".toList] (by decide)

end Weather
